import Mathlib

/-!
Verification of the weighted PageRank engine in `pageRank.c`.

The C program stores pages in a linked list of nodes carrying a url label,
a dense index, the current and previous rank, and the in and out degree; the
graph is an `nV × nV` edge-weight matrix.  Floating-point arithmetic is
modelled exactly over `ℚ`.  The linked list becomes `List PNode`; the edge
matrix becomes a total function `ℕ → ℕ → ℚ` (entries outside `[0, nV)` are
never written and stay `0`).
-/

/-- A url node of the linked list (`List.h` node as used by `pageRank.c`):
url label, dense index, current rank, previous rank, in-degree, out-degree. -/
structure PNode where
  url : String
  index : ℕ
  rank : ℚ
  prevRank : ℚ
  inDegree : ℚ
  outDegree : ℚ
deriving DecidableEq, Repr

/-- The adjacency-matrix graph (`Graph.h`): `nV` vertices and an edge-weight
matrix, `0` meaning "no edge". -/
structure Graph where
  nV : ℕ
  edges : ℕ → ℕ → ℚ

/-- An edge as passed to `GraphInsertEdge`. -/
structure Edge where
  v : ℕ
  w : ℕ
  weight : ℚ

/-- Modelled from the spec: `Graph.c` is not under `src/`.  A new graph has
`nV` vertices and no edges (every matrix entry `0`). -/
def GraphNew (nV : ℕ) : Graph := ⟨nV, fun _ _ => 0⟩

/-- Modelled from the spec: `Graph.c` is not under `src/`.  Per §4.1,
`insertEdge(from, to, weight)` is a no-op if `from == to`; otherwise it
stores the weight at `edges[from][to]`. -/
def GraphInsertEdge (g : Graph) (e : Edge) : Graph :=
  if e.v = e.w then g
  else { g with edges := fun a b => if a = e.v ∧ b = e.w then e.weight else g.edges a b }

/-- `isAdjacent`: returns true iff `edges[v][w] != 0` (pageRank.c:267-270). -/
def isAdjacent (g : Graph) (v w : ℕ) : Bool :=
  if g.edges v w ≠ 0 then true else false

/-- `getNode`: linear scan of the list for the node with the given index
(pageRank.c:206-213).  The C version asserts the index is in range and
crashes on `NULL`; the embedding returns an `Option`. -/
def getNode (l : List PNode) (index : ℕ) : Option PNode :=
  l.find? (fun n => n.index == index)

/-- `getUrlIndex`: resolves a url string to its node index, `none` for the
C version's `-1` "not found" (pageRank.c:156-163). -/
def getUrlIndex (l : List PNode) (url : String) : Option ℕ :=
  (l.find? (fun n => n.url == url)).map (fun n => n.index)

/-- `insertEdges` (pageRank.c:136-153): reads url strings (here: the list of
words of the page's file, file I/O abstracted away), stops at `"#end"`, and
inserts an edge `curr.index → outlinkIndex` of weight 1 for every resolvable
url whose index differs from `curr.index`. -/
def insertEdges (g : Graph) (l : List PNode) (urls : List String) (curr : PNode) : Graph :=
  (urls.takeWhile (fun u => u ≠ "#end")).foldl
    (fun acc url =>
      match getUrlIndex l url with
      | some outlinkIndex =>
          if outlinkIndex ≠ curr.index then
            GraphInsertEdge acc ⟨curr.index, outlinkIndex, 1⟩
          else acc
      | none => acc)
    g

/-- `createGraph` (pageRank.c:99-133): builds the graph by inserting every
page's outlinks; `contents u` stands for the word list read from `u.txt`. -/
def createGraph (l : List PNode) (contents : String → List String) : Graph :=
  l.foldl (fun g curr => insertEdges g l (contents curr.url) curr) (GraphNew l.length)

/-- `incomingDegree` (pageRank.c:273-282): number of `urlB` with an edge
`urlB → urlA`, returned as a rational like the C `double`. -/
def incomingDegree (g : Graph) (urlA : ℕ) : ℚ :=
  ((List.range g.nV).filter (fun urlB => isAdjacent g urlB urlA)).length

/-- `outgoingDegree` (pageRank.c:285-294): number of `urlB` with an edge
`urlA → urlB`. -/
def outgoingDegree (g : Graph) (urlA : ℕ) : ℚ :=
  ((List.range g.nV).filter (fun urlB => isAdjacent g urlA urlB)).length

/-- `initialiseRankAndDegree` (pageRank.c:197-203): sets every node's rank to
`1/N` and its out and in degree from the graph. -/
def initialiseRankAndDegree (l : List PNode) (g : Graph) (N : ℚ) : List PNode :=
  l.map (fun pi =>
    { pi with
        rank := 1 / N
        outDegree := outgoingDegree g pi.index
        inDegree := incomingDegree g pi.index })

/-- `calculateWin` (pageRank.c:253-264): `pi.inDegree` divided by the sum of
the in-degrees of all of `pj`'s out-neighbours (read from the node fields). -/
def calculateWin (l : List PNode) (g : Graph) (pj pi : PNode) : ℚ :=
  let pjTotalIncomingLinks :=
    ((List.range g.nV).map (fun pjCol =>
      if isAdjacent g pj.index pjCol then
        match getNode l pjCol with
        | some refPage => refPage.inDegree
        | none => 0
      else 0)).sum
  pi.inDegree / pjTotalIncomingLinks

/-- `calculateWout` (pageRank.c:297-323): like `calculateWin` but on
out-degrees, substituting `0.5` for a zero out-degree in the numerator, in
each denominator term, and for a zero denominator sum. -/
def calculateWout (l : List PNode) (g : Graph) (pj pi : PNode) : ℚ :=
  let piOutgoingLinks := if pi.outDegree = 0 then (1 : ℚ) / 2 else pi.outDegree
  let s :=
    ((List.range g.nV).map (fun pjCol =>
      if isAdjacent g pj.index pjCol then
        match getNode l pjCol with
        | some refPage =>
            if refPage.outDegree = 0 then (1 : ℚ) / 2 else refPage.outDegree
        | none => 0
      else 0)).sum
  let pjTotalOutgoingLinks := if s = 0 then (1 : ℚ) / 2 else s
  piOutgoingLinks / pjTotalOutgoingLinks

/-- `setGraphWin` (pageRank.c:216-232): a fresh graph holding `calculateWin`
for every non-self-loop edge of `g`. -/
def setGraphWin (l : List PNode) (g : Graph) : Graph :=
  (List.range g.nV).foldl
    (fun accRow pj =>
      (List.range g.nV).foldl
        (fun acc pi =>
          if isAdjacent g pj pi ∧ pj ≠ pi then
            match getNode l pj, getNode l pi with
            | some pjNode, some piNode =>
                GraphInsertEdge acc ⟨pj, pi, calculateWin l g pjNode piNode⟩
            | _, _ => acc
          else acc)
        accRow)
    (GraphNew g.nV)

/-- `setGraphWout` (pageRank.c:235-250): a fresh graph holding
`calculateWout` for every non-self-loop edge of `g`. -/
def setGraphWout (l : List PNode) (g : Graph) : Graph :=
  (List.range g.nV).foldl
    (fun accRow pj =>
      (List.range g.nV).foldl
        (fun acc pi =>
          if isAdjacent g pj pi ∧ pj ≠ pi then
            match getNode l pj, getNode l pi with
            | some pjNode, some piNode =>
                GraphInsertEdge acc ⟨pj, pi, calculateWout l g pjNode piNode⟩
            | _, _ => acc
          else acc)
        accRow)
    (GraphNew g.nV)

/-- `getPageWeight` (pageRank.c:326-339): sum over every in-neighbour `pj`
of `pi` of `pj.prevRank * Wout[pj][pi] * Win[pj][pi]`. -/
def getPageWeight (l : List PNode) (g gWin gWout : Graph) (pi : PNode) : ℚ :=
  ((List.range g.nV).map (fun pjIndex =>
    if isAdjacent g pjIndex pi.index then
      (match getNode l pjIndex with
       | some pj => pj.prevRank
       | none => 0) * gWout.edges pjIndex pi.index * gWin.edges pjIndex pi.index
    else 0)).sum

/-- The first loop of an iteration (pageRank.c:180-182): copy every node's
rank into its `prevRank`. -/
def storePrevRank (l : List PNode) : List PNode :=
  l.map (fun pi => { pi with prevRank := pi.rank })

/-- The second loop of an iteration (pageRank.c:184-188): walk the list in
order and update each node's rank in place to
`(1 - d)/N + d * getPageWeight(...)`, the weight being computed against the
current (partially updated) list exactly as the C code reads it. -/
def updatePhase (g gWin gWout : Graph) (d N : ℚ) (l : List PNode) : List PNode :=
  (List.range l.length).foldl
    (fun cur k =>
      match cur[k]? with
      | some pi =>
          cur.set k { pi with rank := (1 - d) / N + d * getPageWeight cur g gWin gWout pi }
      | none => cur)
    l

/-- One full iteration of the rank loop body (pageRank.c:179-188). -/
def iterationStep (g gWin gWout : Graph) (d N : ℚ) (l : List PNode) : List PNode :=
  updatePhase g gWin gWout d N (storePrevRank l)

/-- `calculateDiff` (pageRank.c:342-348): L1 distance between `rank` and
`prevRank` over the list. -/
def calculateDiff (l : List PNode) : ℚ :=
  (l.map (fun pi => |pi.rank - pi.prevRank|)).sum

/-- Result of the iteration loop: the final list, plus the number of
executed rank-update steps and the final value of `diff` (instrumentation
recording what the C loop's control variables saw; the C function returns
only the list). -/
structure LoopRes where
  list : List PNode
  steps : ℕ
  diff : ℚ
deriving DecidableEq, Repr

/-- The `for (int i = 1; i < maxIterations && diff >= diffPR; i++)` loop of
`calculatePageRank` (pageRank.c:177-190), as fuel recursion: the fuel is the
number of loop iterations still permitted by the counter, i.e.
`maxIterations - i`. -/
def prLoop (g gWin gWout : Graph) (d N diffPR : ℚ) :
    ℕ → ℚ → List PNode → LoopRes
  | 0, diff, l => ⟨l, 0, diff⟩
  | fuel + 1, diff, l =>
      if diffPR ≤ diff then
        let l2 := iterationStep g gWin gWout d N l
        let r := prLoop g gWin gWout d N diffPR fuel (calculateDiff l2) l2
        ⟨r.list, r.steps + 1, r.diff⟩
      else ⟨l, 0, diff⟩

/-- `calculatePageRank` (pageRank.c:166-194): initialise ranks and degrees,
build `Win` and `Wout` once, then run the iteration loop with `diff`
initialised to `diffPR` and the counter running from 1 to
`maxIterations - 1`.  `maxIterations` is a C `int`, hence `ℤ`. -/
def calculatePageRank (l : List PNode) (g : Graph) (d diffPR : ℚ)
    (maxIterations : ℤ) : LoopRes :=
  let N : ℚ := (g.nV : ℚ)
  let l0 := initialiseRankAndDegree l g N
  let gWin := setGraphWin l0 g
  let gWout := setGraphWout l0 g
  prLoop g gWin gWout d N diffPR (maxIterations - 1).toNat diffPR l0

/-! ## Basic lemmas about the graph structure -/

instance : Inhabited PNode := ⟨⟨"", 0, 0, 0, 0, 0⟩⟩

lemma GraphNew_edges (n a b : ℕ) : (GraphNew n).edges a b = 0 := rfl

lemma GraphInsertEdge_edges (g : Graph) (e : Edge) (a b : ℕ) :
    (GraphInsertEdge g e).edges a b =
      if e.v ≠ e.w ∧ a = e.v ∧ b = e.w then e.weight else g.edges a b := by
  unfold GraphInsertEdge
  by_cases h : e.v = e.w
  · simp [h]
  · by_cases hab : a = e.v ∧ b = e.w
    · simp [h, hab]
    · simp [h, hab]

lemma GraphInsertEdge_diag (g : Graph) (e : Edge) (i : ℕ) :
    (GraphInsertEdge g e).edges i i = g.edges i i := by
  rw [GraphInsertEdge_edges]
  split_ifs with h
  · exact absurd (h.2.1.symm.trans h.2.2) h.1
  · rfl

lemma foldl_invariant {α : Type} {β : Type} (P : α → Prop) (f : α → β → α)
    (hf : ∀ a b, P a → P (f a b)) :
    ∀ (l : List β) (a : α), P a → P (l.foldl f a)
  | [], _, ha => ha
  | b :: l, a, ha => foldl_invariant P f hf l (f a b) (hf a b ha)

/-- Lookup in a fold that inserts a value `F b` at `(pj, b)` for each visited
column `b` (the inner loop of `setGraphWin`/`setGraphWout`). -/
lemma foldl_edges_row {step : Graph → ℕ → Graph} {pj : ℕ} {F : ℕ → Option ℚ}
    (hstep : ∀ acc b, step acc b =
      match F b with
      | some x => GraphInsertEdge acc ⟨pj, b, x⟩
      | none => acc)
    (hFpj : F pj = none) :
    ∀ (cols : List ℕ) (acc : Graph) (a b : ℕ),
      (cols.foldl step acc).edges a b =
        if a = pj ∧ b ∈ cols ∧ (F b).isSome then (F b).getD 0 else acc.edges a b := by
  intro cols
  induction cols with
  | nil => intro acc a b; simp
  | cons c cs ih =>
    intro acc a b
    rw [List.foldl_cons, ih, hstep acc c]
    rcases hFc : F c with _ | x
    · by_cases hbc : b = c
      · subst hbc; simp [hFc]
      · simp [List.mem_cons, hbc]
    · have hcpj : pj ≠ c := by
        intro h; rw [← h, hFpj] at hFc; exact Option.noConfusion hFc
      have hins : (GraphInsertEdge acc ⟨pj, c, x⟩).edges a b =
          if a = pj ∧ b = c then x else acc.edges a b := by
        rw [GraphInsertEdge_edges]
        by_cases hab : a = pj ∧ b = c
        · simp [hab, hcpj]
        · simp only [ne_eq]
          rw [if_neg (by simpa [hcpj] using hab), if_neg hab]
      rw [hins]
      by_cases hapj : a = pj
      · subst hapj
        by_cases hbc : b = c
        · subst hbc
          by_cases hbcs : b ∈ cs <;> simp [hFc, hbcs]
        · simp [List.mem_cons, hbc]
      · simp [hapj]

/-- Lookup in the outer fold over rows. -/
lemma foldl_edges_matrix {stepRow : Graph → ℕ → Graph} {F : ℕ → ℕ → Option ℚ}
    {cols : List ℕ}
    (hrow : ∀ acc pj a b, (stepRow acc pj).edges a b =
      if a = pj ∧ b ∈ cols ∧ (F pj b).isSome then (F pj b).getD 0 else acc.edges a b) :
    ∀ (rows : List ℕ) (acc : Graph) (a b : ℕ),
      (rows.foldl stepRow acc).edges a b =
        if a ∈ rows ∧ b ∈ cols ∧ (F a b).isSome then (F a b).getD 0 else acc.edges a b := by
  intro rows
  induction rows with
  | nil => intro acc a b; simp
  | cons r rs ih =>
    intro acc a b
    rw [List.foldl_cons, ih, hrow]
    by_cases har : a = r
    · subst har
      by_cases hrest : b ∈ cols ∧ (F a b).isSome
      · by_cases hars : a ∈ rs <;> simp [hars, hrest]
      · simp only [List.mem_cons]
        rw [if_neg (by tauto), if_neg (by tauto), if_neg (by tauto)]
    · simp [List.mem_cons, har]

/-! ## Lookup characterisation of `setGraphWin` and `setGraphWout` -/

/-- The value `setGraphWin` inserts at `(pj, b)`, `none` when nothing is
inserted there. -/
def FWin (l : List PNode) (g : Graph) (pj b : ℕ) : Option ℚ :=
  if isAdjacent g pj b ∧ pj ≠ b then
    match getNode l pj, getNode l b with
    | some pjNode, some piNode => some (calculateWin l g pjNode piNode)
    | _, _ => none
  else none

/-- The value `setGraphWout` inserts at `(pj, b)`. -/
def FWout (l : List PNode) (g : Graph) (pj b : ℕ) : Option ℚ :=
  if isAdjacent g pj b ∧ pj ≠ b then
    match getNode l pj, getNode l b with
    | some pjNode, some piNode => some (calculateWout l g pjNode piNode)
    | _, _ => none
  else none

lemma setGraphWin_edges (l : List PNode) (g : Graph) (a b : ℕ) :
    (setGraphWin l g).edges a b =
      if a ∈ List.range g.nV ∧ b ∈ List.range g.nV ∧ (FWin l g a b).isSome
      then (FWin l g a b).getD 0 else 0 := by
  unfold setGraphWin
  rw [foldl_edges_matrix (F := FWin l g)
    (fun acc pj a b => foldl_edges_row
      (fun acc2 b2 => by
        show (if isAdjacent g pj b2 ∧ pj ≠ b2 then _ else acc2) = _
        unfold FWin
        by_cases h : isAdjacent g pj b2 ∧ pj ≠ b2
        · rw [if_pos h, if_pos h]
          cases hA : getNode l pj <;> cases hB : getNode l b2 <;> simp
        · rw [if_neg h, if_neg h])
      (by unfold FWin; simp)
      (List.range g.nV) acc a b)]
  rfl

lemma setGraphWout_edges (l : List PNode) (g : Graph) (a b : ℕ) :
    (setGraphWout l g).edges a b =
      if a ∈ List.range g.nV ∧ b ∈ List.range g.nV ∧ (FWout l g a b).isSome
      then (FWout l g a b).getD 0 else 0 := by
  unfold setGraphWout
  rw [foldl_edges_matrix (F := FWout l g)
    (fun acc pj a b => foldl_edges_row
      (fun acc2 b2 => by
        show (if isAdjacent g pj b2 ∧ pj ≠ b2 then _ else acc2) = _
        unfold FWout
        by_cases h : isAdjacent g pj b2 ∧ pj ≠ b2
        · rw [if_pos h, if_pos h]
          cases hA : getNode l pj <;> cases hB : getNode l b2 <;> simp
        · rw [if_neg h, if_neg h])
      (by unfold FWout; simp)
      (List.range g.nV) acc a b)]
  rfl

/-! ## The node list as the engine sees it: dense indices -/

/-- After loading, index `k` of the list sits at position `k`: the loader
assigns dense indices `0..N-1` in list order. -/
def denseIdx (l : List PNode) : Prop :=
  l.map PNode.index = List.range l.length

instance (l : List PNode) : Decidable (denseIdx l) :=
  inferInstanceAs (Decidable (l.map PNode.index = List.range l.length))

lemma getNode_of_range (l : List PNode) :
    ∀ (off : ℕ), l.map PNode.index = List.range' off l.length →
    ∀ j, off ≤ j → j < off + l.length → getNode l j = l[j - off]? := by
  induction l with
  | nil =>
    intro off _ j h1 h2
    simp only [List.length_nil, Nat.add_zero] at h2
    exact ((by omega : False)).elim
  | cons p rest ih =>
    intro off hmap j h1 h2
    rw [List.map_cons, List.length_cons, List.range'_succ] at hmap
    injection hmap with hp hrest
    by_cases hj : j = off
    · unfold getNode
      rw [List.find?_cons_of_pos _ (by simp [hp, hj])]
      have : j - off = 0 := by omega
      rw [this]
      simp
    · unfold getNode
      rw [List.find?_cons_of_neg _ (by simp [hp]; omega)]
      have hrec := ih (off + 1) hrest j (by omega)
        (by rw [List.length_cons] at h2; omega)
      unfold getNode at hrec
      rw [hrec]
      have : j - off = (j - (off + 1)) + 1 := by omega
      rw [this, List.getElem?_cons_succ]

lemma getNode_dense {l : List PNode} (hl : denseIdx l) {j : ℕ} (hj : j < l.length) :
    getNode l j = l[j]? := by
  have := getNode_of_range l 0
    (by rw [← List.range_eq_range']; exact hl) j (Nat.zero_le j) (by omega)
  simpa using this

lemma dense_index_at {l : List PNode} (hl : denseIdx l) {j : ℕ} {p : PNode}
    (hp : l[j]? = some p) : p.index = j := by
  have hj : j < l.length := by
    by_contra h
    rw [List.getElem?_eq_none (by omega)] at hp
    exact Option.noConfusion hp
  have h1 : (l.map PNode.index)[j]? = some p.index := by
    rw [List.getElem?_map, hp]; rfl
  rw [hl, List.getElem?_range hj] at h1
  exact (Option.some_inj.mp h1).symm

lemma initialise_length (l : List PNode) (g : Graph) (N : ℚ) :
    (initialiseRankAndDegree l g N).length = l.length := by
  simp [initialiseRankAndDegree]

lemma initialise_map_index (l : List PNode) (g : Graph) (N : ℚ) :
    (initialiseRankAndDegree l g N).map PNode.index = l.map PNode.index := by
  unfold initialiseRankAndDegree
  rw [List.map_map]
  rfl

lemma denseIdx_initialise {l : List PNode} (g : Graph) (N : ℚ) (hl : denseIdx l) :
    denseIdx (initialiseRankAndDegree l g N) := by
  unfold denseIdx
  rw [initialise_map_index, initialise_length]
  exact hl

lemma getNode_initialise {l : List PNode} {g : Graph} (N : ℚ) (hl : denseIdx l)
    (hlen : l.length = g.nV) {j : ℕ} (hj : j < g.nV) :
    ∃ p : PNode, getNode (initialiseRankAndDegree l g N) j = some p ∧
      p.index = j ∧ p.rank = 1 / N ∧ p.inDegree = incomingDegree g j ∧
      p.outDegree = outgoingDegree g j := by
  have hjl : j < l.length := by omega
  rw [getNode_dense (denseIdx_initialise g N hl) (by rw [initialise_length]; omega)]
  unfold initialiseRankAndDegree
  obtain ⟨q, hq⟩ : ∃ q, l[j]? = some q := ⟨_, List.getElem?_eq_getElem hjl⟩
  rw [List.getElem?_map, hq]
  have hidx := dense_index_at hl hq
  exact ⟨_, rfl, hidx, rfl, by simp [hidx], by simp [hidx]⟩

/-! ## The weight formulas in graph terms -/

/-- Spec formula §4.3: the `Win` denominator, the sum of the in-degrees of
all out-neighbours of `j`. -/
def winDenomSpec (g : Graph) (j : ℕ) : ℚ :=
  ((List.range g.nV).map (fun k =>
    if isAdjacent g j k then incomingDegree g k else 0)).sum

/-- Spec formula §4.3: `effOut(x) = outDegree(x)` if nonzero, else `0.5`. -/
def effOut (g : Graph) (x : ℕ) : ℚ :=
  if outgoingDegree g x = 0 then (1 : ℚ) / 2 else outgoingDegree g x

/-- Spec formula §4.3: the `Wout` denominator, the sum of `effOut` over the
out-neighbours of `j`, itself replaced by `0.5` when zero. -/
def woutDenomSpec (g : Graph) (j : ℕ) : ℚ :=
  if ((List.range g.nV).map (fun k =>
      if isAdjacent g j k then effOut g k else 0)).sum = 0
  then (1 : ℚ) / 2
  else ((List.range g.nV).map (fun k =>
      if isAdjacent g j k then effOut g k else 0)).sum

lemma setGraphWin_formula {l : List PNode} {g : Graph} (N : ℚ) (hl : denseIdx l)
    (hlen : l.length = g.nV) {j i : ℕ} (hj : j < g.nV) (hi : i < g.nV)
    (hadj : g.edges j i ≠ 0) (hne : j ≠ i) :
    (setGraphWin (initialiseRankAndDegree l g N) g).edges j i =
      incomingDegree g i / winDenomSpec g j := by
  obtain ⟨pj, hpj, hpjidx, _, hpjin, _⟩ := getNode_initialise N hl hlen hj
  obtain ⟨pi, hpi, hpiidx, _, hpiin, _⟩ := getNode_initialise N hl hlen hi
  have hadjb : isAdjacent g j i = true := by simp [isAdjacent, hadj]
  have hF : FWin (initialiseRankAndDegree l g N) g j i =
      some (calculateWin (initialiseRankAndDegree l g N) g pj pi) := by
    unfold FWin
    rw [if_pos ⟨hadjb, hne⟩, hpj, hpi]
  rw [setGraphWin_edges,
    if_pos ⟨List.mem_range.mpr hj, List.mem_range.mpr hi, by rw [hF]; rfl⟩, hF]
  show calculateWin (initialiseRankAndDegree l g N) g pj pi = _
  unfold calculateWin
  have hsum : ((List.range g.nV).map (fun pjCol =>
      if isAdjacent g pj.index pjCol then
        match getNode (initialiseRankAndDegree l g N) pjCol with
        | some refPage => refPage.inDegree
        | none => 0
      else 0)).sum = winDenomSpec g j := by
    unfold winDenomSpec
    congr 1
    apply List.map_congr_left
    intro k hk
    obtain ⟨pk, hpk, _, _, hpkin, _⟩ :=
      getNode_initialise N hl hlen (List.mem_range.mp hk)
    rw [hpjidx]
    by_cases ha : isAdjacent g j k = true
    · rw [if_pos ha, if_pos ha, hpk]
      exact hpkin
    · rw [if_neg ha, if_neg ha]
  simp only []
  rw [hsum, hpiin]

lemma setGraphWout_formula {l : List PNode} {g : Graph} (N : ℚ) (hl : denseIdx l)
    (hlen : l.length = g.nV) {j i : ℕ} (hj : j < g.nV) (hi : i < g.nV)
    (hadj : g.edges j i ≠ 0) (hne : j ≠ i) :
    (setGraphWout (initialiseRankAndDegree l g N) g).edges j i =
      effOut g i / woutDenomSpec g j := by
  obtain ⟨pj, hpj, hpjidx, _, _, hpjout⟩ := getNode_initialise N hl hlen hj
  obtain ⟨pi, hpi, hpiidx, _, _, hpiout⟩ := getNode_initialise N hl hlen hi
  have hadjb : isAdjacent g j i = true := by simp [isAdjacent, hadj]
  have hF : FWout (initialiseRankAndDegree l g N) g j i =
      some (calculateWout (initialiseRankAndDegree l g N) g pj pi) := by
    unfold FWout
    rw [if_pos ⟨hadjb, hne⟩, hpj, hpi]
  rw [setGraphWout_edges,
    if_pos ⟨List.mem_range.mpr hj, List.mem_range.mpr hi, by rw [hF]; rfl⟩, hF]
  show calculateWout (initialiseRankAndDegree l g N) g pj pi = _
  unfold calculateWout
  have hsum : ((List.range g.nV).map (fun pjCol =>
      if isAdjacent g pj.index pjCol then
        match getNode (initialiseRankAndDegree l g N) pjCol with
        | some refPage =>
            if refPage.outDegree = 0 then (1 : ℚ) / 2 else refPage.outDegree
        | none => 0
      else 0)).sum = ((List.range g.nV).map (fun k =>
        if isAdjacent g j k then effOut g k else 0)).sum := by
    congr 1
    apply List.map_congr_left
    intro k hk
    obtain ⟨pk, hpk, _, _, _, hpkout⟩ :=
      getNode_initialise N hl hlen (List.mem_range.mp hk)
    rw [hpjidx]
    by_cases ha : isAdjacent g j k = true
    · rw [if_pos ha, if_pos ha, hpk]
      show (if pk.outDegree = 0 then (1 : ℚ) / 2 else pk.outDegree) = effOut g k
      rw [hpkout]
      rfl
    · rw [if_neg ha, if_neg ha]
  simp only []
  rw [hsum, hpiout]
  unfold woutDenomSpec effOut
  rfl

/-! ## Degree positivity: the Win denominator is at least 1 -/

lemma incomingDegree_nonneg (g : Graph) (k : ℕ) : 0 ≤ incomingDegree g k := by
  unfold incomingDegree
  exact_mod_cast Nat.zero_le _

lemma one_le_incomingDegree {g : Graph} {j i : ℕ} (hj : j < g.nV)
    (hadj : g.edges j i ≠ 0) : 1 ≤ incomingDegree g i := by
  have hadjb : isAdjacent g j i = true := by simp [isAdjacent, hadj]
  unfold incomingDegree
  have hmem : j ∈ (List.range g.nV).filter (fun urlB => isAdjacent g urlB i) :=
    List.mem_filter.mpr ⟨List.mem_range.mpr hj, hadjb⟩
  have hpos : 0 < ((List.range g.nV).filter (fun urlB => isAdjacent g urlB i)).length :=
    List.length_pos.mpr (List.ne_nil_of_mem hmem)
  exact_mod_cast hpos

lemma one_le_winDenomSpec {g : Graph} {j i : ℕ} (hj : j < g.nV) (hi : i < g.nV)
    (hadj : g.edges j i ≠ 0) : 1 ≤ winDenomSpec g j := by
  have hadjb : isAdjacent g j i = true := by simp [isAdjacent, hadj]
  have hterm : (if isAdjacent g j i then incomingDegree g i else 0) ∈
      (List.range g.nV).map (fun k =>
        if isAdjacent g j k then incomingDegree g k else 0) :=
    List.mem_map_of_mem _ (List.mem_range.mpr hi)
  calc (1 : ℚ) ≤ (if isAdjacent g j i then incomingDegree g i else 0) := by
        rw [if_pos hadjb]
        exact one_le_incomingDegree hj hadj
    _ ≤ winDenomSpec g j := by
        apply List.single_le_sum _ _ hterm
        intro x hx
        obtain ⟨k, _, rfl⟩ := List.mem_map.mp hx
        by_cases ha : isAdjacent g j k = true
        · rw [if_pos ha]; exact incomingDegree_nonneg g k
        · rw [if_neg ha]

/-! ## Initialisation -/

lemma initialise_mem (l : List PNode) (g : Graph) (N : ℚ) :
    ∀ p ∈ initialiseRankAndDegree l g N, p.rank = 1 / N ∧
      p.inDegree = incomingDegree g p.index ∧
      p.outDegree = outgoingDegree g p.index := by
  intro p hp
  unfold initialiseRankAndDegree at hp
  obtain ⟨q, _, rfl⟩ := List.mem_map.mp hp
  exact ⟨rfl, rfl, rfl⟩

lemma initialise_rank_sum {l : List PNode} {g : Graph} (hlen : l.length = g.nV)
    (hN : 0 < g.nV) :
    ((initialiseRankAndDegree l g (g.nV : ℚ)).map PNode.rank).sum = 1 := by
  unfold initialiseRankAndDegree
  rw [List.map_map]
  show (l.map (fun _ => 1 / (g.nV : ℚ))).sum = 1
  rw [List.map_const', List.sum_replicate, nsmul_eq_mul, hlen, mul_one_div,
    div_self (by exact_mod_cast (by omega : g.nV ≠ 0))]

/-! ## The snapshot property of the update phase -/

/-- Two nodes agreeing on every field except possibly `rank`. -/
def SameButRank (a b : PNode) : Prop :=
  a.url = b.url ∧ a.index = b.index ∧ a.prevRank = b.prevRank ∧
    a.inDegree = b.inDegree ∧ a.outDegree = b.outDegree

lemma sameButRank_refl (a : PNode) : SameButRank a a := ⟨rfl, rfl, rfl, rfl, rfl⟩

lemma sameButRank_update {a b : PNode} (h : SameButRank a b) (v : ℚ) :
    ({ a with rank := v } : PNode) = { b with rank := v } := by
  obtain ⟨h1, h2, h3, h4, h5⟩ := h
  cases a; cases b
  simp_all

lemma sameButRank_update_left {a b : PNode} (h : SameButRank a b) (v : ℚ) :
    SameButRank ({ a with rank := v }) b := h

lemma getNode_sameButRank :
    ∀ {l₁ l₂ : List PNode}, List.Forall₂ SameButRank l₁ l₂ → ∀ j,
      (getNode l₁ j).map PNode.prevRank = (getNode l₂ j).map PNode.prevRank := by
  intro l₁ l₂ h
  induction h with
  | nil => intro j; rfl
  | @cons a b t₁ t₂ ha _ ih =>
    intro j
    obtain ⟨_, hidx, hprev, _, _⟩ := ha
    unfold getNode at *
    by_cases hj : (a.index == j) = true
    · rw [List.find?_cons_of_pos (p := fun (n : PNode) => n.index == j) _ hj,
        List.find?_cons_of_pos (p := fun (n : PNode) => n.index == j) _
          (by show (b.index == j) = true; rw [← hidx]; exact hj)]
      simpa using hprev
    · rw [List.find?_cons_of_neg (p := fun (n : PNode) => n.index == j) _ hj,
        List.find?_cons_of_neg (p := fun (n : PNode) => n.index == j) _
          (by show ¬(b.index == j) = true; rw [← hidx]; exact hj)]
      exact ih j

lemma getPageWeight_congr {l₁ l₂ : List PNode} (h : List.Forall₂ SameButRank l₁ l₂)
    {p₁ p₂ : PNode} (hp : p₁.index = p₂.index) (g win wout : Graph) :
    getPageWeight l₁ g win wout p₁ = getPageWeight l₂ g win wout p₂ := by
  unfold getPageWeight
  congr 1
  apply List.map_congr_left
  intro j _
  rw [hp]
  by_cases ha : isAdjacent g j p₂.index = true
  · rw [if_pos ha, if_pos ha]
    have hm : ∀ (l : List PNode),
        (match getNode l j with
         | some pj => pj.prevRank
         | none => 0) = ((getNode l j).map PNode.prevRank).getD 0 := by
      intro l; cases getNode l j <;> rfl
    rw [hm l₁, hm l₂, getNode_sameButRank h j]
  · rw [if_neg ha, if_neg ha]

lemma forall₂_getElem {R : PNode → PNode → Prop} :
    ∀ {l₁ l₂ : List PNode}, List.Forall₂ R l₁ l₂ → ∀ {k : ℕ} {x : PNode},
      l₁[k]? = some x → ∃ y, l₂[k]? = some y ∧ R x y := by
  intro l₁ l₂ h
  induction h with
  | nil => intro k x hx; simp at hx
  | @cons a b t₁ t₂ ha _ ih =>
    intro k x hx
    cases k with
    | zero =>
      rw [List.getElem?_cons_zero] at hx
      cases hx
      exact ⟨b, List.getElem?_cons_zero, ha⟩
    | succ n =>
      rw [List.getElem?_cons_succ] at hx
      obtain ⟨y, hy, hr⟩ := ih hx
      exact ⟨y, by rw [List.getElem?_cons_succ]; exact hy, hr⟩

lemma forall₂_set {R : PNode → PNode → Prop} :
    ∀ {l₁ l₂ : List PNode}, List.Forall₂ R l₁ l₂ → ∀ {k : ℕ} {x : PNode},
      (∀ y, l₂[k]? = some y → R x y) → List.Forall₂ R (l₁.set k x) l₂ := by
  intro l₁ l₂ h
  induction h with
  | nil => intro k x _; exact List.Forall₂.nil
  | @cons a b t₁ t₂ ha _ ih =>
    intro k x hx
    cases k with
    | zero =>
      rw [List.set_cons_zero]
      exact List.Forall₂.cons (hx b List.getElem?_cons_zero) (by assumption)
    | succ n =>
      rw [List.set_cons_succ]
      exact List.Forall₂.cons ha
        (ih (fun y hy => hx y (by rw [List.getElem?_cons_succ]; exact hy)))

lemma updateFold_getElem (g win wout : Graph) (d N : ℚ) (l0 : List PNode) :
    ∀ (ks : List ℕ) (cur : List PNode), List.Forall₂ SameButRank cur l0 →
      ∀ a : ℕ,
        (ks.foldl (fun cur k =>
          match cur[k]? with
          | some pi =>
              cur.set k { pi with rank := (1 - d) / N + d * getPageWeight cur g win wout pi }
          | none => cur) cur)[a]? =
        (if a ∈ ks ∧ a < l0.length then
          (l0[a]?).map (fun p =>
            { p with rank := (1 - d) / N + d * getPageWeight l0 g win wout p })
        else cur[a]?) := by
  intro ks
  induction ks with
  | nil => intro cur h a; simp
  | cons k ks ih =>
    intro cur h a
    simp only [List.foldl_cons]
    have hlen := h.length_eq
    rcases hcur : cur[k]? with _ | pi
    · simp only [hcur]
      rw [ih cur h a]
      by_cases hks : a ∈ ks ∧ a < l0.length
      · rw [if_pos hks, if_pos ⟨List.mem_cons_of_mem _ hks.1, hks.2⟩]
      · have hk : cur.length ≤ k := by
          by_contra hlt
          rw [List.getElem?_eq_getElem (by omega)] at hcur
          exact Option.noConfusion hcur
        rw [if_neg hks, if_neg (by
          rintro ⟨hmem, hlt⟩
          rcases List.mem_cons.mp hmem with rfl | hmem2
          · omega
          · exact hks ⟨hmem2, hlt⟩)]
    · simp only [hcur]
      have hkl : k < cur.length := by
        by_contra hge
        rw [List.getElem?_eq_none (by omega)] at hcur
        exact Option.noConfusion hcur
      obtain ⟨q, hq, hpq⟩ := forall₂_getElem h hcur
      have hidx : pi.index = q.index := hpq.2.1
      have hR2 : List.Forall₂ SameButRank
          (cur.set k { pi with rank := (1 - d) / N + d * getPageWeight cur g win wout pi })
          l0 :=
        forall₂_set h (fun y hy => by
          rw [hq] at hy
          cases hy
          exact sameButRank_update_left hpq _)
      rw [ih _ hR2 a]
      by_cases hks : a ∈ ks ∧ a < l0.length
      · rw [if_pos hks, if_pos ⟨List.mem_cons_of_mem _ hks.1, hks.2⟩]
      · by_cases hak : a = k
        · subst hak
          have hal : a < l0.length := by omega
          rw [if_neg hks, if_pos ⟨List.mem_cons_self _ _, hal⟩,
            List.getElem?_set_self hkl, hq]
          have hrec : ({ pi with rank := (1 - d) / N + d * getPageWeight cur g win wout pi } : PNode)
              = { q with rank := (1 - d) / N + d * getPageWeight l0 g win wout q } := by
            rw [getPageWeight_congr h hidx g win wout]
            exact sameButRank_update hpq _
          rw [hrec]
          rfl
        · rw [if_neg hks, if_neg (by
            rintro ⟨hmem, hlt⟩
            rcases List.mem_cons.mp hmem with rfl | hmem2
            · exact hak rfl
            · exact hks ⟨hmem2, hlt⟩)]
          exact List.getElem?_set_ne (fun hk2 => hak hk2.symm)

/-- In-place update reads only the pre-step `prevRank` snapshot: the update
fold is the pure map applying the rank formula against the unchanged list. -/
lemma updatePhase_eq_map (g win wout : Graph) (d N : ℚ) (l : List PNode) :
    updatePhase g win wout d N l =
      l.map (fun p => { p with rank := (1 - d) / N + d * getPageWeight l g win wout p }) := by
  apply List.ext_getElem?
  intro a
  unfold updatePhase
  rw [updateFold_getElem g win wout d N l (List.range l.length) l
    (List.forall₂_same.mpr (fun x _ => sameButRank_refl x)) a]
  rw [List.getElem?_map]
  by_cases ha : a < l.length
  · rw [if_pos ⟨List.mem_range.mpr ha, ha⟩]
  · rw [if_neg (fun hc => ha hc.2), List.getElem?_eq_none (by omega)]
    rfl

lemma storePrevRank_getElem (l : List PNode) (a : ℕ) :
    (storePrevRank l)[a]? = (l[a]?).map (fun p => { p with prevRank := p.rank }) := by
  unfold storePrevRank
  rw [List.getElem?_map]

lemma storePrevRank_length (l : List PNode) : (storePrevRank l).length = l.length := by
  simp [storePrevRank]

lemma denseIdx_storePrevRank {l : List PNode} (hl : denseIdx l) :
    denseIdx (storePrevRank l) := by
  unfold denseIdx storePrevRank
  rw [List.map_map, List.length_map]
  exact hl

/-! ## The iteration loop -/

lemma prLoop_steps_le (g gWin gWout : Graph) (d N diffPR : ℚ) :
    ∀ (fuel : ℕ) (diff : ℚ) (l : List PNode),
      (prLoop g gWin gWout d N diffPR fuel diff l).steps ≤ fuel := by
  intro fuel
  induction fuel with
  | zero => intro diff l; exact Nat.le_refl 0
  | succ n ih =>
    intro diff l
    unfold prLoop
    by_cases h : diffPR ≤ diff
    · rw [if_pos h]
      exact Nat.succ_le_succ (ih _ _)
    · rw [if_neg h]
      exact Nat.zero_le _

lemma prLoop_steps_pos (g gWin gWout : Graph) (d N diffPR : ℚ) (fuel : ℕ)
    (diff : ℚ) (l : List PNode) (hfuel : 1 ≤ fuel) (hdiff : diffPR ≤ diff) :
    1 ≤ (prLoop g gWin gWout d N diffPR fuel diff l).steps := by
  obtain ⟨n, rfl⟩ : ∃ n, fuel = n + 1 := ⟨fuel - 1, by omega⟩
  unfold prLoop
  rw [if_pos hdiff]
  exact Nat.succ_le_succ (Nat.zero_le _)

lemma prLoop_early_conv (g gWin gWout : Graph) (d N diffPR : ℚ) :
    ∀ (fuel : ℕ) (diff : ℚ) (l : List PNode),
      (prLoop g gWin gWout d N diffPR fuel diff l).steps < fuel →
      (prLoop g gWin gWout d N diffPR fuel diff l).diff < diffPR := by
  intro fuel
  induction fuel with
  | zero => intro diff l h; omega
  | succ n ih =>
    intro diff l
    unfold prLoop
    by_cases h : diffPR ≤ diff
    · rw [if_pos h]
      intro hlt
      refine ih (calculateDiff (iterationStep g gWin gWout d N l))
        (iterationStep g gWin gWout d N l) ?_
      have hlt2 : (prLoop g gWin gWout d N diffPR n
          (calculateDiff (iterationStep g gWin gWout d N l))
          (iterationStep g gWin gWout d N l)).steps + 1 < n + 1 := hlt
      omega
    · rw [if_neg h]
      intro _
      exact lt_of_not_le h

lemma prLoop_list_iterate (g gWin gWout : Graph) (d N diffPR : ℚ) :
    ∀ (fuel : ℕ) (diff : ℚ) (l : List PNode),
      (prLoop g gWin gWout d N diffPR fuel diff l).list =
        (iterationStep g gWin gWout d N)^[(prLoop g gWin gWout d N diffPR fuel diff l).steps] l := by
  intro fuel
  induction fuel with
  | zero => intro diff l; rfl
  | succ n ih =>
    intro diff l
    unfold prLoop
    by_cases h : diffPR ≤ diff
    · rw [if_pos h]
      show (prLoop g gWin gWout d N diffPR n _ _).list =
        (iterationStep g gWin gWout d N)^[(prLoop g gWin gWout d N diffPR n _ _).steps + 1] l
      rw [ih, Function.iterate_succ_apply]
    · rw [if_neg h]
      rfl

lemma isAdjacent_eq_true {g : Graph} {v w : ℕ} :
    isAdjacent g v w = true ↔ g.edges v w ≠ 0 := by
  unfold isAdjacent
  by_cases h : g.edges v w ≠ 0 <;> simp [h]

/-! ## Concrete inputs used by witnesses and counterexamples -/

/-- Two url nodes as the loader produces them (indices dense in list order). -/
def urlListEx : List PNode := [⟨"url1", 0, 0, 0, 0, 0⟩, ⟨"url2", 1, 0, 0, 0, 0⟩]

/-- The two-node graph whose only edge is `0 → 1`. -/
def graphEx : Graph := GraphInsertEdge (GraphNew 2) ⟨0, 1, 1⟩

/-! ## Claim theorems -/

/-- C1: one iteration step sets `rank[i] = (1 - d)/N + d * weight(i)` where
`weight(i)` sums `prevRank[j] * Wout[j][i] * Win[j][i]` over every edge
`j → i`, `N` being the node count; a node with no incoming edge gets exactly
`(1 - d)/N`. -/
theorem step_rank_formula (g win wout : Graph) (d : ℚ) (l : List PNode)
    (hl : denseIdx l) (hlen : l.length = g.nV) (i : ℕ) (hi : i < g.nV) :
    ((iterationStep g win wout d (g.nV : ℚ) l).map PNode.rank)[i]? =
      some ((1 - d) / (g.nV : ℚ) + d *
        ((List.range g.nV).map (fun j =>
          if g.edges j i ≠ 0 then
            (l.map PNode.rank).getD j 0 * wout.edges j i * win.edges j i
          else 0)).sum) ∧
    ((∀ j, j < g.nV → g.edges j i = 0) →
      ((iterationStep g win wout d (g.nV : ℚ) l).map PNode.rank)[i]? =
        some ((1 - d) / (g.nV : ℚ))) := by
  have hil : i < l.length := by omega
  obtain ⟨li, hli⟩ : ∃ x, l[i]? = some x := ⟨_, List.getElem?_eq_getElem hil⟩
  have hliidx : li.index = i := dense_index_at hl hli
  have hsl : denseIdx (storePrevRank l) := denseIdx_storePrevRank hl
  have hsllen : (storePrevRank l).length = l.length := storePrevRank_length l
  have hmain : ((iterationStep g win wout d (g.nV : ℚ) l).map PNode.rank)[i]? =
      some ((1 - d) / (g.nV : ℚ) + d *
        ((List.range g.nV).map (fun j =>
          if g.edges j i ≠ 0 then
            (l.map PNode.rank).getD j 0 * wout.edges j i * win.edges j i
          else 0)).sum) := by
    unfold iterationStep
    rw [updatePhase_eq_map, List.map_map, List.getElem?_map,
      storePrevRank_getElem, hli]
    show some _ = some _
    congr 1
    show (1 - d) / (g.nV : ℚ) + d * getPageWeight (storePrevRank l) g win wout
        ({ li with prevRank := li.rank }) = _
    congr 1
    congr 1
    unfold getPageWeight
    congr 1
    apply List.map_congr_left
    intro j hjr
    have hjn : j < g.nV := List.mem_range.mp hjr
    have hjl : j < l.length := by omega
    obtain ⟨lj, hlj⟩ : ∃ x, l[j]? = some x := ⟨_, List.getElem?_eq_getElem hjl⟩
    have hgn : getNode (storePrevRank l) j = some ({ lj with prevRank := lj.rank }) := by
      rw [getNode_dense hsl (by omega), storePrevRank_getElem, hlj]
      rfl
    have hpidx : ({ li with prevRank := li.rank } : PNode).index = i := hliidx
    rw [hpidx]
    have hgetD : (l.map PNode.rank).getD j 0 = lj.rank := by
      rw [List.getD_eq_getElem?_getD, List.getElem?_map, hlj]
      rfl
    by_cases hz : g.edges j i = 0
    · rw [if_neg (by rw [isAdjacent_eq_true]; simp [hz]), if_neg (by simp [hz])]
    · rw [if_pos (isAdjacent_eq_true.mpr hz), if_pos hz, hgn, hgetD]
  refine ⟨hmain, fun hzero => ?_⟩
  rw [hmain]
  congr 1
  have hsum : ((List.range g.nV).map (fun j =>
      if g.edges j i ≠ 0 then
        (l.map PNode.rank).getD j 0 * wout.edges j i * win.edges j i
      else 0)).sum = 0 := by
    apply List.sum_eq_zero
    intro x hx
    obtain ⟨j, hj, rfl⟩ := List.mem_map.mp hx
    rw [if_neg (fun hc => hc (hzero j (List.mem_range.mp hj)))]
  rw [hsum, mul_zero, add_zero]

attribute [local semireducible] Rat.add Rat.mul Rat.inv Rat.sub in
theorem step_rank_formula_witness :
    denseIdx urlListEx ∧ urlListEx.length = graphEx.nV ∧ 0 < graphEx.nV ∧
    (((iterationStep graphEx (GraphNew 2) (GraphNew 2) (1/2) (graphEx.nV : ℚ)
        urlListEx).map PNode.rank)[0]? =
      some ((1 - 1/2) / (graphEx.nV : ℚ) + (1/2) *
        ((List.range graphEx.nV).map (fun j =>
          if graphEx.edges j 0 ≠ 0 then
            (urlListEx.map PNode.rank).getD j 0 * (GraphNew 2).edges j 0 *
              (GraphNew 2).edges j 0
          else 0)).sum) ∧
      ((∀ j, j < graphEx.nV → graphEx.edges j 0 = 0) →
        (((iterationStep graphEx (GraphNew 2) (GraphNew 2) (1/2) (graphEx.nV : ℚ)
          urlListEx).map PNode.rank)[0]? = some ((1 - 1/2) / (graphEx.nV : ℚ))))) :=
  ⟨by decide, by decide, by decide,
    step_rank_formula graphEx (GraphNew 2) (GraphNew 2) (1/2) urlListEx
      (by decide) (by decide) 0 (by decide)⟩

/-- C2 counterexample: with a positive threshold `diffPR = 1/10000` and
`maxIterations = 1` the loop guard `i = 1 < maxIterations` fails at once, so
the engine performs zero rank-update steps, not "at least 1". -/
theorem iteration_min_steps_cex :
    0 < (1 : ℚ) / 10000 ∧
    (calculatePageRank urlListEx graphEx (17/20) (1/10000) 1).steps = 0 := by
  constructor
  · norm_num
  · decide

/-- C2 (amended): for `maxIterations ≥ 2` the engine performs at least 1 and
at most `maxIterations - 1` rank-update steps; if it stops before exhausting
the counter, the final L1 difference is below `diffPR`; and the final list is
the step function iterated exactly `steps` times from the initialised list. -/
theorem iteration_count_bounds (l : List PNode) (g : Graph) (d diffPR : ℚ)
    (maxIterations : ℤ) (h2 : 2 ≤ maxIterations) :
    1 ≤ (calculatePageRank l g d diffPR maxIterations).steps ∧
    ((calculatePageRank l g d diffPR maxIterations).steps : ℤ) ≤ maxIterations - 1 ∧
    (((calculatePageRank l g d diffPR maxIterations).steps : ℤ) < maxIterations - 1 →
      (calculatePageRank l g d diffPR maxIterations).diff < diffPR) ∧
    (calculatePageRank l g d diffPR maxIterations).list =
      (iterationStep g
        (setGraphWin (initialiseRankAndDegree l g (g.nV : ℚ)) g)
        (setGraphWout (initialiseRankAndDegree l g (g.nV : ℚ)) g)
        d (g.nV : ℚ))^[(calculatePageRank l g d diffPR maxIterations).steps]
        (initialiseRankAndDegree l g (g.nV : ℚ)) := by
  have hcp : calculatePageRank l g d diffPR maxIterations =
      prLoop g (setGraphWin (initialiseRankAndDegree l g (g.nV : ℚ)) g)
        (setGraphWout (initialiseRankAndDegree l g (g.nV : ℚ)) g)
        d (g.nV : ℚ) diffPR (maxIterations - 1).toNat diffPR
        (initialiseRankAndDegree l g (g.nV : ℚ)) := rfl
  rw [hcp]
  have hle := prLoop_steps_le g
    (setGraphWin (initialiseRankAndDegree l g (g.nV : ℚ)) g)
    (setGraphWout (initialiseRankAndDegree l g (g.nV : ℚ)) g)
    d (g.nV : ℚ) diffPR (maxIterations - 1).toNat diffPR
    (initialiseRankAndDegree l g (g.nV : ℚ))
  refine ⟨?_, by omega, fun hlt => ?_, ?_⟩
  · exact prLoop_steps_pos _ _ _ _ _ _ _ _ _ (by omega) le_rfl
  · exact prLoop_early_conv _ _ _ _ _ _ _ _ _ (by omega)
  · exact prLoop_list_iterate _ _ _ _ _ _ _ _ _

attribute [local semireducible] Rat.add Rat.mul Rat.inv Rat.sub in
theorem iteration_count_bounds_witness :
    (2 : ℤ) ≤ 3 ∧
    (1 ≤ (calculatePageRank urlListEx graphEx (17/20) (1/10000) 3).steps ∧
    ((calculatePageRank urlListEx graphEx (17/20) (1/10000) 3).steps : ℤ) ≤ 3 - 1 ∧
    (((calculatePageRank urlListEx graphEx (17/20) (1/10000) 3).steps : ℤ) < 3 - 1 →
      (calculatePageRank urlListEx graphEx (17/20) (1/10000) 3).diff < 1/10000) ∧
    (calculatePageRank urlListEx graphEx (17/20) (1/10000) 3).list =
      (iterationStep graphEx
        (setGraphWin (initialiseRankAndDegree urlListEx graphEx (graphEx.nV : ℚ)) graphEx)
        (setGraphWout (initialiseRankAndDegree urlListEx graphEx (graphEx.nV : ℚ)) graphEx)
        (17/20) (graphEx.nV : ℚ))^[(calculatePageRank urlListEx graphEx (17/20) (1/10000) 3).steps]
        (initialiseRankAndDegree urlListEx graphEx (graphEx.nV : ℚ))) :=
  ⟨by decide,
    iteration_count_bounds urlListEx graphEx (17/20) (1/10000) 3 (by decide)⟩

/-- C3: for every edge `j → i` (`j ≠ i`) of the loaded graph,
`Wout[j][i] = effOut(i) / Σ_{k : j→k} effOut(k)` with the `0.5` fallback
applied to the numerator node, to each denominator term and to a zero
denominator sum. -/
theorem wout_edge_formula (l : List PNode) (g : Graph) (hl : denseIdx l)
    (hlen : l.length = g.nV) (j i : ℕ) (hj : j < g.nV) (hi : i < g.nV)
    (hadj : g.edges j i ≠ 0) (hne : j ≠ i) :
    (setGraphWout (initialiseRankAndDegree l g (g.nV : ℚ)) g).edges j i =
      effOut g i / woutDenomSpec g j :=
  setGraphWout_formula (g.nV : ℚ) hl hlen hj hi hadj hne

attribute [local semireducible] Rat.add Rat.mul Rat.inv Rat.sub in
theorem wout_edge_formula_witness :
    denseIdx urlListEx ∧ urlListEx.length = graphEx.nV ∧
    0 < graphEx.nV ∧ 1 < graphEx.nV ∧ graphEx.edges 0 1 ≠ 0 ∧ (0 : ℕ) ≠ 1 ∧
    (setGraphWout (initialiseRankAndDegree urlListEx graphEx (graphEx.nV : ℚ))
        graphEx).edges 0 1 = effOut graphEx 1 / woutDenomSpec graphEx 0 :=
  ⟨by decide, by decide, by decide, by decide, by decide, by decide,
    wout_edge_formula urlListEx graphEx (by decide) (by decide) 0 1
      (by decide) (by decide) (by decide) (by decide)⟩

/-- C4: for every edge `j → i` (`j ≠ i`),
`Win[j][i] = inDegree(i) / Σ_{k : j→k} inDegree(k)`; moreover the engine's
whole run is the iteration of one step function whose `Win`/`Wout` arguments
are the matrices built once from the initialised list, so they are never
recomputed during iteration. -/
theorem win_edge_formula_static (l : List PNode) (g : Graph) (hl : denseIdx l)
    (hlen : l.length = g.nV) (j i : ℕ) (hj : j < g.nV) (hi : i < g.nV)
    (hadj : g.edges j i ≠ 0) (hne : j ≠ i) (d diffPR : ℚ) (maxIterations : ℤ) :
    (setGraphWin (initialiseRankAndDegree l g (g.nV : ℚ)) g).edges j i =
      incomingDegree g i / winDenomSpec g j ∧
    (calculatePageRank l g d diffPR maxIterations).list =
      (iterationStep g
        (setGraphWin (initialiseRankAndDegree l g (g.nV : ℚ)) g)
        (setGraphWout (initialiseRankAndDegree l g (g.nV : ℚ)) g)
        d (g.nV : ℚ))^[(calculatePageRank l g d diffPR maxIterations).steps]
        (initialiseRankAndDegree l g (g.nV : ℚ)) := by
  constructor
  · exact setGraphWin_formula (g.nV : ℚ) hl hlen hj hi hadj hne
  · have hcp : calculatePageRank l g d diffPR maxIterations =
        prLoop g (setGraphWin (initialiseRankAndDegree l g (g.nV : ℚ)) g)
          (setGraphWout (initialiseRankAndDegree l g (g.nV : ℚ)) g)
          d (g.nV : ℚ) diffPR (maxIterations - 1).toNat diffPR
          (initialiseRankAndDegree l g (g.nV : ℚ)) := rfl
    rw [hcp]
    exact prLoop_list_iterate _ _ _ _ _ _ _ _ _

attribute [local semireducible] Rat.add Rat.mul Rat.inv Rat.sub in
theorem win_edge_formula_static_witness :
    denseIdx urlListEx ∧ urlListEx.length = graphEx.nV ∧
    0 < graphEx.nV ∧ 1 < graphEx.nV ∧ graphEx.edges 0 1 ≠ 0 ∧ (0 : ℕ) ≠ 1 ∧
    ((setGraphWin (initialiseRankAndDegree urlListEx graphEx (graphEx.nV : ℚ))
        graphEx).edges 0 1 = incomingDegree graphEx 1 / winDenomSpec graphEx 0 ∧
    (calculatePageRank urlListEx graphEx (17/20) (1/10000) 5).list =
      (iterationStep graphEx
        (setGraphWin (initialiseRankAndDegree urlListEx graphEx (graphEx.nV : ℚ)) graphEx)
        (setGraphWout (initialiseRankAndDegree urlListEx graphEx (graphEx.nV : ℚ)) graphEx)
        (17/20) (graphEx.nV : ℚ))^[(calculatePageRank urlListEx graphEx (17/20) (1/10000) 5).steps]
        (initialiseRankAndDegree urlListEx graphEx (graphEx.nV : ℚ))) :=
  ⟨by decide, by decide, by decide, by decide, by decide, by decide,
    win_edge_formula_static urlListEx graphEx (by decide) (by decide) 0 1
      (by decide) (by decide) (by decide) (by decide) (17/20) (1/10000) 5⟩

attribute [local semireducible] Rat.add Rat.mul Rat.inv Rat.sub in
/-- C5 counterexample: with `maxIterations = 0 ≤ 0` (and any valid graph) the
engine does not refuse to run: `calculatePageRank` still returns a full,
nonempty rank vector (the initialised one), with no error surfaced. -/
theorem engine_runs_at_invalid_config_cex :
    (0 : ℤ) ≤ 0 ∧
    (calculatePageRank urlListEx graphEx (1/2) (1/100) 0).list =
      initialiseRankAndDegree urlListEx graphEx (graphEx.nV : ℚ) ∧
    (calculatePageRank urlListEx graphEx (1/2) (1/100) 0).list ≠ [] := by
  refine ⟨by decide, by decide, by decide⟩

/-- C5 (amended): the engine performs no configuration validation: for any
damping factor, threshold and `maxIterations ≤ 1` (hence for the invalid
`maxIterations ≤ 0`), `calculatePageRank` silently returns the initialised
`1/N` rank vector after zero update steps instead of surfacing an error. -/
theorem no_config_validation (l : List PNode) (g : Graph) (d diffPR : ℚ)
    (maxIterations : ℤ) (h : maxIterations ≤ 1) :
    (calculatePageRank l g d diffPR maxIterations).list =
      initialiseRankAndDegree l g (g.nV : ℚ) ∧
    (calculatePageRank l g d diffPR maxIterations).steps = 0 := by
  have hcp : calculatePageRank l g d diffPR maxIterations =
      prLoop g (setGraphWin (initialiseRankAndDegree l g (g.nV : ℚ)) g)
        (setGraphWout (initialiseRankAndDegree l g (g.nV : ℚ)) g)
        d (g.nV : ℚ) diffPR (maxIterations - 1).toNat diffPR
        (initialiseRankAndDegree l g (g.nV : ℚ)) := rfl
  have hz : (maxIterations - 1).toNat = 0 := by omega
  rw [hcp, hz]
  exact ⟨rfl, rfl⟩

attribute [local semireducible] Rat.add Rat.mul Rat.inv Rat.sub in
theorem no_config_validation_witness :
    (0 : ℤ) ≤ 1 ∧
    ((calculatePageRank urlListEx graphEx (1/2) (1/100) 0).list =
      initialiseRankAndDegree urlListEx graphEx (graphEx.nV : ℚ) ∧
    (calculatePageRank urlListEx graphEx (1/2) (1/100) 0).steps = 0) :=
  ⟨by decide, no_config_validation urlListEx graphEx (1/2) (1/100) 0 (by decide)⟩

/-- C6: within one iteration the rank vector is first snapshotted into
`prevRank` and every update reads only that snapshot, so the sequential
in-place update loop equals a pure functional map over the snapshotted
list. -/
theorem step_snapshot_pure_map (g gWin gWout : Graph) (d N : ℚ) (l : List PNode) :
    iterationStep g gWin gWout d N l =
      (storePrevRank l).map (fun p =>
        { p with rank := (1 - d) / N + d *
            getPageWeight (storePrevRank l) g gWin gWout p }) :=
  updatePhase_eq_map g gWin gWout d N (storePrevRank l)

/-- C7: at initialisation every node's rank is exactly `1/N`, the degree
fields are the degrees of the fully built graph, and the rank vector sums to
exactly 1. -/
theorem init_ranks_and_sum (l : List PNode) (g : Graph)
    (hlen : l.length = g.nV) (hN : 0 < g.nV) :
    (∀ p ∈ initialiseRankAndDegree l g (g.nV : ℚ),
      p.rank = 1 / (g.nV : ℚ) ∧ p.inDegree = incomingDegree g p.index ∧
      p.outDegree = outgoingDegree g p.index) ∧
    ((initialiseRankAndDegree l g (g.nV : ℚ)).map PNode.rank).sum = 1 :=
  ⟨initialise_mem l g (g.nV : ℚ), initialise_rank_sum hlen hN⟩

attribute [local semireducible] Rat.add Rat.mul Rat.inv Rat.sub in
theorem init_ranks_and_sum_witness :
    urlListEx.length = graphEx.nV ∧ 0 < graphEx.nV ∧
    ((∀ p ∈ initialiseRankAndDegree urlListEx graphEx (graphEx.nV : ℚ),
      p.rank = 1 / (graphEx.nV : ℚ) ∧
      p.inDegree = incomingDegree graphEx p.index ∧
      p.outDegree = outgoingDegree graphEx p.index) ∧
    ((initialiseRankAndDegree urlListEx graphEx (graphEx.nV : ℚ)).map
      PNode.rank).sum = 1) :=
  ⟨by decide, by decide,
    init_ranks_and_sum urlListEx graphEx (by decide) (by decide)⟩

/-- C8: for every edge `j → i` on which `Win` is computed, the denominator
(the in-degrees of `j`'s out-neighbours summed) is at least 1 — `j`'s own
edges give each out-neighbour in-degree at least 1 — hence it is nonzero and
the stored `Win[j][i]` really is `inDegree(i)` divided by that sum: the
§4.3 zero-denominator hazard is unreachable. -/
theorem win_denominator_ge_one (l : List PNode) (g : Graph) (hl : denseIdx l)
    (hlen : l.length = g.nV) (j i : ℕ) (hj : j < g.nV) (hi : i < g.nV)
    (hadj : g.edges j i ≠ 0) (hne : j ≠ i) :
    1 ≤ winDenomSpec g j ∧ winDenomSpec g j ≠ 0 ∧
    (setGraphWin (initialiseRankAndDegree l g (g.nV : ℚ)) g).edges j i =
      incomingDegree g i / winDenomSpec g j := by
  have h1 := one_le_winDenomSpec hj hi hadj
  exact ⟨h1, ne_of_gt (lt_of_lt_of_le zero_lt_one h1),
    setGraphWin_formula (g.nV : ℚ) hl hlen hj hi hadj hne⟩

attribute [local semireducible] Rat.add Rat.mul Rat.inv Rat.sub in
theorem win_denominator_ge_one_witness :
    denseIdx urlListEx ∧ urlListEx.length = graphEx.nV ∧
    0 < graphEx.nV ∧ 1 < graphEx.nV ∧ graphEx.edges 0 1 ≠ 0 ∧ (0 : ℕ) ≠ 1 ∧
    (1 ≤ winDenomSpec graphEx 0 ∧ winDenomSpec graphEx 0 ≠ 0 ∧
    (setGraphWin (initialiseRankAndDegree urlListEx graphEx (graphEx.nV : ℚ))
        graphEx).edges 0 1 = incomingDegree graphEx 1 / winDenomSpec graphEx 0) :=
  ⟨by decide, by decide, by decide, by decide, by decide, by decide,
    win_denominator_ge_one urlListEx graphEx (by decide) (by decide) 0 1
      (by decide) (by decide) (by decide) (by decide)⟩

attribute [local semireducible] Rat.add Rat.mul Rat.inv Rat.sub in
/-- C9: on the two-node graph whose only edge is `0 → 1`, the computed
weight matrices satisfy `Win[0][1] = 1` and `Wout[0][1] = 1` (node 1's zero
out-degree taking the `0.5` fallback in both numerator and denominator of
`Wout`). -/
theorem two_node_win_wout :
    (setGraphWin (initialiseRankAndDegree urlListEx graphEx (graphEx.nV : ℚ))
        graphEx).edges 0 1 = 1 ∧
    (setGraphWout (initialiseRankAndDegree urlListEx graphEx (graphEx.nV : ℚ))
        graphEx).edges 0 1 = 1 := by
  constructor <;> decide

lemma setGraphWin_diag (l : List PNode) (g : Graph) (i : ℕ) :
    (setGraphWin l g).edges i i = 0 := by
  have hF : FWin l g i i = none := by unfold FWin; simp
  rw [setGraphWin_edges, hF]
  simp

lemma setGraphWout_diag (l : List PNode) (g : Graph) (i : ℕ) :
    (setGraphWout l g).edges i i = 0 := by
  have hF : FWout l g i i = none := by unfold FWout; simp
  rw [setGraphWout_edges, hF]
  simp

lemma createGraph_diag (lc : List PNode) (contents : String → List String) (i : ℕ) :
    (createGraph lc contents).edges i i = 0 := by
  unfold createGraph
  refine foldl_invariant (fun G => G.edges i i = 0) _ ?_ lc (GraphNew lc.length) rfl
  intro acc curr hacc
  unfold insertEdges
  refine foldl_invariant (fun G => G.edges i i = 0) _ ?_ _ acc hacc
  intro acc2 url hacc2
  cases hu : getUrlIndex lc url with
  | none => simpa [hu] using hacc2
  | some idx =>
    simp only [hu]
    split_ifs with hne
    · rw [GraphInsertEdge_diag]
      exact hacc2
    · exact hacc2

/-- C10: no self-loop ever exists: the loader discards every link whose
resolved index equals the current page's index before insertion (and the
modelled `GraphInsertEdge` is a no-op on `from = to`), and the weight-matrix
builders skip diagonal entries, so `edges[i][i] = 0` in the loaded graph and
in both `Win` and `Wout`. -/
theorem no_self_loops_anywhere (lc : List PNode) (contents : String → List String)
    (lw : List PNode) (i : ℕ) :
    (createGraph lc contents).edges i i = 0 ∧
    (setGraphWin lw (createGraph lc contents)).edges i i = 0 ∧
    (setGraphWout lw (createGraph lc contents)).edges i i = 0 :=
  ⟨createGraph_diag lc contents i, setGraphWin_diag lw _ i, setGraphWout_diag lw _ i⟩
